import Mathlib

/-!
Verification of the cmlutils-teams migration tool against its specification.

The development shallowly embeds the team-migration logic of
`cmlutils/teams.py` and `cmlutils/teams_entrypoint.py`:

- records (users, teams, memberships) become Lean structures;
- the HTTP transport and the destination platform are external
  collaborators; their behaviour is passed in as explicit data
  (server-side record lists, call outcomes, key oracles) or modelled as a
  small state machine on an association list of destination teams;
- Python exceptions become an `Except` result with an explicit error type;
- in-place mutation of the caller's team dictionary is made explicit by
  returning the mutated team record.

Python code raising an exception is modelled by `Except.error`; the
functions are otherwise direct transcriptions of the source, including
its bugs (an out-of-range list index on owner-less teams, the inverted
cache-store condition and the literal cache key in the credential cache).
-/

namespace CmlTeams

/-- A user record: `username` plus the `admin` flag read by the checker.
Further provider fields are opaque pass-through and irrelevant here. -/
structure User where
  username : String
  admin : Bool
  deriving DecidableEq

/-- A team-membership entry: `username`, `permission` (the code compares it
with the literals "owner" and "admin") and the remaining opaque fields. -/
structure Member where
  username : String
  permission : String
  extra : List (String × String)
  deriving DecidableEq

/-- A team record: its handle `username`, the `teamMembers` list, and the
remaining opaque fields. -/
structure Team where
  username : String
  teamMembers : List Member
  extra : List (String × String)
  deriving DecidableEq

/-- Python exceptions that the embedded code can raise: an IndexError from
indexing an empty list, an HTTPError carrying the body message, and the
`MalformedTeamError` named by the specification (no code in the repository
defines or raises it; it is included so that statements can refer to it). -/
inductive PyErr where
  | indexError
  | malformedTeamError
  | httpError (message : String)
  deriving DecidableEq

/-- Usernames of a user list; embeds the keys of `user_dict` built by
`_check_teams_users_integration` (dictionary membership is list membership
of the username). -/
def userNames (users : List User) : List String :=
  users.map User.username

/-- Embeds the per-team body of `_check_teams_users_integration`
(cmlutils/teams.py). Mirrors the source order: an empty owner list first
sets the result to false and logs, but the subsequent `team_owner_list[0]`
raises an IndexError; the not-an-admin branch only logs a warning (the
`result = False` there is commented out in the source); every membership
username is then required to be a known user. -/
def check_team (names : List String) (team : Team) : Except PyErr Bool :=
  let ownerList := team.teamMembers.filter (fun m => m.permission == "owner")
  let r := if ownerList.length ≤ 0 then false else true
  match ownerList with
  | [] => Except.error PyErr.indexError
  | o :: _ =>
      let r := if o.username ∈ names then r else false
      let r := team.teamMembers.foldl
        (fun acc m => if m.username ∈ names then acc else false) r
      Except.ok r

/-- The loop of `_check_teams_users_integration` over the team list,
threading the single `result` flag; the first owner-less team aborts the
whole call with the IndexError. -/
def checkLoop (names : List String) : Bool → List Team → Except PyErr Bool
  | acc, [] => Except.ok acc
  | acc, t :: ts =>
      match check_team names t with
      | Except.error e => Except.error e
      | Except.ok b => checkLoop names (acc && b) ts

/-- Embeds `_check_teams_users_integration(user_list, team_list)`
(cmlutils/teams.py, lines 43-75). -/
def check_teams_users_integration (users : List User) (teams : List Team) :
    Except PyErr Bool :=
  checkLoop (userNames users) true teams

/-- Embeds `TeamImporter._pre_import_verify` (cmlutils/teams.py, lines
373-380): it reads the team list from the snapshot file and fetches the
user list from the import destination host (`self.get_teamuser_listv1(False)`
on the importer, whose host is the destination); the users file written at
export time is never read. The `exportedUsers` argument records that file,
present on disk but unread, so that statements can refer to it. -/
def pre_import_verify (exportedUsers destUsers : List User)
    (teamsFile : List Team) : Except PyErr Bool :=
  let _ := exportedUsers
  check_teams_users_integration destUsers teamsFile

/-- Embeds the paged list endpoint used by `get_team_or_user_listv1_paged`
(cmlutils/teams.py, lines 164-180): the server holds `records` and a page
request returns the slice starting at `offset` of length at most `limit`. -/
def get_team_or_user_listv1_paged (records : List α) (offset limit : Nat) :
    List α :=
  (records.drop offset).take limit

/-- Embeds the while loop of `TeamBase.get_teamuser_listv1`
(cmlutils/teams.py, lines 182-191): fetch the page at
`offset = page * limit`, stop on an empty page, otherwise extend and fetch
the next page. Returns the collected records together with the number of
page requests issued. -/
def teamuserListLoop (records : List α) (limit offset : Nat) : List α × Nat :=
  if h : (get_team_or_user_listv1_paged records offset limit).length = 0 then
    ([], 1)
  else
    let r := teamuserListLoop records limit (offset + limit)
    (get_team_or_user_listv1_paged records offset limit ++ r.1, r.2 + 1)
termination_by records.length - offset
decreasing_by
  simp only [get_team_or_user_listv1_paged] at h
  have h2 : List.drop offset records ≠ [] := fun e => h (by rw [e]; simp)
  have h3 : limit ≠ 0 := fun e => h (by rw [e]; simp)
  rw [ne_eq, List.drop_eq_nil_iff] at h2
  omega

/-- Embeds `TeamBase.get_teamuser_listv1` itself: the loop started at page 0
with the fixed page size 10000 of the source. -/
def get_teamuser_listv1 (records : List α) : List α × Nat :=
  teamuserListLoop records 10000 0

/-- Embeds `TeamBase._retrive_or_create_api_key_for_user` (cmlutils/teams.py,
lines 134-149). `getKey` and `newKey` give the outcomes of the GET and POST
api-key calls (`none` means the call raises). The result is the returned
key, the new cache and the number of network calls issued. The transcription
keeps the two slips of the source: the guard `if not api_key is not None`
stores only when the key is `None`, and the store uses the literal string
"username" as the cache key. -/
def retrive_or_create_api_key_for_user
    (getKey newKey : String → Option String)
    (cache : List (String × Option String)) (username : String) :
    Option String × List (String × Option String) × Nat :=
  match cache.lookup username with
  | some v => (v, cache, 0)
  | none =>
      match getKey username with
      | some k => (some k, cache, 1)
      | none =>
          match newKey username with
          | some k => (some k, cache, 2)
          | none => (none, ("username", none) :: cache, 2)

/-- Whether `sub` is an initial segment of `l` (character lists). -/
def startsWithSub : List Char → List Char → Bool
  | [], _ => true
  | _ :: _, [] => false
  | a :: as, b :: bs => a == b && startsWithSub as bs

/-- Whether `sub` occurs contiguously inside `s`; embeds Python
`s.find(sub) >= 0`. -/
def containsSub (sub : List Char) : List Char → Bool
  | [] => startsWithSub sub []
  | c :: rest => startsWithSub sub (c :: rest) || containsSub sub rest

/-- The conflict-message fragment matched by `add_team_member`. -/
def already_member_msg : String := "is already a member of this team"

/-- Outcome of the underlying membership-add HTTP call
(`TeamBase._add_team_memberv1`): success, or an HTTPError whose body
carries the given `message` field. -/
inductive V1CallResult where
  | success
  | failure (message : String)
  deriving DecidableEq

/-- Embeds `TeamBase.add_team_member` (cmlutils/teams.py, lines 246-257):
an HTTPError whose body message contains the already-a-member fragment is
logged and swallowed; any other HTTPError is re-raised. -/
def add_team_member (call : V1CallResult) : Except PyErr Unit :=
  match call with
  | V1CallResult.success => Except.ok ()
  | V1CallResult.failure msg =>
      if containsSub already_member_msg.data msg.data then
        Except.ok ()
      else
        Except.error (PyErr.httpError msg)

/-- State of one destination team: the owner it was created under and the
membership entries added afterwards. -/
structure DestTeam where
  owner : String
  members : List Member
  deriving DecidableEq

/-- Destination-platform state: association list from team handle to team
state (most recent entry first). -/
abbrev DestState := List (String × DestTeam)

/-- Modelled from the spec: the destination delete-team endpoint used by
`TeamBase._del_team`; deleting an absent team raises server-side, but the
caller swallows every failure, so the net effect is removal when present
and no change otherwise. -/
def del_team (name : String) (s : DestState) : DestState :=
  s.filter (fun p => p.1 != name)

/-- Modelled from the spec: the destination add-team endpoint used by
`TeamBase._add_team`; acting as `owner`, it creates a fresh team with that
owner and no further members. -/
def add_team (name owner : String) (s : DestState) : DestState :=
  (name, { owner := owner, members := [] }) :: s

/-- Modelled from the spec: the destination add-member endpoint for a single
team record. A user already present on the team (the owner included) makes
the call fail with the already-a-member conflict, which the caller swallows,
so the net effect is no change; otherwise the entry is appended. -/
def addMemberEntry (dt : DestTeam) (m : Member) : DestTeam :=
  if dt.owner == m.username || dt.members.any (fun x => x.username == m.username) then
    dt
  else
    { dt with members := dt.members ++ [m] }

/-- The add-member endpoint on the whole destination state. -/
def add_member_state (name : String) (m : Member) (s : DestState) : DestState :=
  s.map (fun p => if p.1 == name then (p.1, addMemberEntry p.2 m) else p)

/-- Whether the team has at least one membership with permission "owner". -/
def hasOwner (t : Team) : Bool :=
  t.teamMembers.any (fun m => m.permission == "owner")

/-- The net effect on the caller's member list of the in-place mutation
performed by `TeamImporter._create_or_update_team`: the loop writes
`m['permission'] = 'admin'` through the aliases held in `team_owner_list`
for every owner entry after the first, so in the list itself every
"owner"-permission entry after the first one becomes "admin". The flag
records whether an owner entry has been passed already. -/
def downgradeExtras : Bool → List Member → List Member
  | _, [] => []
  | seen, m :: ms =>
      if m.permission == "owner" then
        (if seen then { m with permission := "admin" } else m)
          :: downgradeExtras true ms
      else
        m :: downgradeExtras seen ms

/-- Embeds `TeamImporter._create_or_update_team` (cmlutils/teams.py, lines
335-362) with `ENABLE_TEAM_FAKE_TEST = False` (its constructor value).
`tr` embeds `_translate_member` (`extract_fields` with `MEMBER_MAPV1`;
cmlutils/utils.py and constants.py are outside the given sources, so the
translation is kept abstract). Steps as in the source: take the first
entry of the owner filter (IndexError when there is none), delete any
same-named destination team, create the team acting as the owner, add
every non-owner member (the non-owner filter is computed before the
mutation loop), then add each further owner entry after flipping its
permission to "admin" in place. The mutated team record is returned next
to the new destination state. -/
def create_or_update_team (tr : Member → Member) (t : Team) (s : DestState) :
    Except PyErr (Team × DestState) :=
  let memberList := t.teamMembers
  let ownerList := memberList.filter (fun m => m.permission == "owner")
  match ownerList with
  | [] => Except.error PyErr.indexError
  | towner :: restOwners =>
      let ownerName := towner.username
      let s1 := del_team t.username s
      let s2 := add_team t.username ownerName s1
      let nonOwners := memberList.filter (fun m => m.permission != "owner")
      let s3 := nonOwners.foldl
        (fun st m => add_member_state t.username (tr m) st) s2
      let s4 := restOwners.foldl
        (fun st m =>
          add_member_state t.username (tr { m with permission := "admin" }) st) s3
      Except.ok ({ t with teamMembers := downgradeExtras false memberList }, s4)

/-- Embeds the replay loop of `TeamImporter._import_teams` (cmlutils/teams.py,
lines 382-396): `_create_or_update_team` is called for each team in order
with no try/except around it, so the first exception aborts the loop. The
result is the destination state reached and the escaped exception, if any. -/
def replayAllTeams (tr : Member → Member) :
    List Team → DestState → DestState × Option PyErr
  | [], s => (s, none)
  | t :: ts, s =>
      match create_or_update_team tr t s with
      | Except.ok (_, s2) => replayAllTeams tr ts s2
      | Except.error e => (s, some e)

/-- Number of "owner"-permission entries among the first `i` members; used
to state which owner entries come after the first one. -/
def ownersBefore (members : List Member) (i : Nat) : Nat :=
  ((members.take i).filter (fun m => m.permission == "owner")).length

/-- A metadata record for the diff engine: field name / value pairs. -/
abbrev VRecord := List (String × String)

/-- Value of field `f` of a record. -/
def getField (r : VRecord) (f : String) : Option String :=
  r.lookup f

/-- The record of a collection whose identity field holds `k`. -/
def findByKey (coll : List VRecord) (idKey k : String) : Option VRecord :=
  coll.find? (fun r => getField r idKey == some k)

/-- Modelled from the spec: the `missingKeys` half of `compare_metadata`
(cmlutils/utils.py, which is not among the given sources): the symmetric
difference of the two key lists, identities present on one side only. -/
def missing_keys (lk rk : List String) : List String :=
  lk.filter (fun k => decide (k ∉ rk)) ++ rk.filter (fun k => decide (k ∉ lk))

/-- Field names of an optional record. -/
def record_fields : Option VRecord → List String
  | none => []
  | some r => r.map Prod.fst

/-- Modelled from the spec: the `fieldDiffs` half of `compare_metadata`
(cmlutils/utils.py, not among the given sources): for every identity
present in both key lists, every field of either corresponding record that
is not excluded, is not the identity field itself, and whose value differs
across the two records (value equality, absent compared as absent). -/
def field_diffs (left right : List VRecord) (lk rk : List String)
    (skip : List String) (idKey : String) : List (String × String) :=
  (lk.filter (fun k => decide (k ∈ rk))).flatMap (fun k =>
    let lr := findByKey left idKey k
    let rr := findByKey right idKey k
    (((record_fields lr ++ record_fields rr).dedup).filter (fun f =>
      decide (f ∉ skip) && decide (f ≠ idKey) &&
        decide (Option.bind lr (fun r => getField r f) ≠
          Option.bind rr (fun r => getField r f)))).map (fun f => (k, f)))

/-- Modelled from the spec: `compare_metadata(source, dest, source_keys,
dest_keys, skip_field, user_id_key)` as contracted in the specification
and invoked by `_team_verify` (cmlutils/teams_entrypoint.py, lines
238-249): returns the missing identities and the (identity, field)
difference pairs. -/
def compare_metadata (left right : List VRecord) (lk rk : List String)
    (skip : List String) (idKey : String) :
    List String × List (String × String) :=
  (missing_keys lk rk, field_diffs left right lk rk skip idKey)

/-! Concrete inputs used by counterexamples and witnesses. -/

/-- A user list with a single admin user. -/
def c1_users : List User := [{ username := "alice", admin := true }]

/-- A team whose member list contains no "owner"-permission entry. -/
def c1_team : Team :=
  { username := "t1"
    teamMembers := [{ username := "bob", permission := "member", extra := [] }]
    extra := [] }

/-- An owner-less team under the handle "bad". -/
def c2_bad : Team :=
  { username := "bad"
    teamMembers := [{ username := "bob", permission := "member", extra := [] }]
    extra := [] }

/-- A well-formed team under the handle "good". -/
def c2_good : Team :=
  { username := "good"
    teamMembers := [{ username := "alice", permission := "owner", extra := [] }]
    extra := [] }

/-- A key-fetch oracle that always succeeds with the key "k42". -/
def c3_get : String → Option String := fun _ => some "k42"

/-- A key oracle that always fails. -/
def c3_none : String → Option String := fun _ => none

/-- A team with two owner entries and a plain member. -/
def c10_team : Team :=
  { username := "t"
    teamMembers :=
      [{ username := "alice", permission := "owner", extra := [] },
       { username := "bob", permission := "member", extra := [] },
       { username := "carol", permission := "owner", extra := [] }]
    extra := [] }

/-- A team in which the username "b" occurs twice, once as a second owner
and once as a plain member. -/
def c7_team : Team :=
  { username := "t"
    teamMembers :=
      [{ username := "a", permission := "owner", extra := [] },
       { username := "b", permission := "owner", extra := [] },
       { username := "b", permission := "member", extra := [] }]
    extra := [] }

/-- An empty exported users file. -/
def c8_exported : List User := []

/-- Users present on the destination instance. -/
def c8_dest : List User :=
  [{ username := "alice", admin := true }, { username := "bob", admin := false }]

/-- A snapshot team list referencing alice and bob. -/
def c8_teams : List Team :=
  [{ username := "t1"
     teamMembers :=
       [{ username := "alice", permission := "owner", extra := [] },
        { username := "bob", permission := "member", extra := [] }]
     extra := [] }]

/-! Helper lemmas shared by several results. -/

/-- A team has an owner entry exactly when the owner filter is nonempty. -/
theorem hasOwner_iff_filter_ne_nil (t : Team) :
    hasOwner t = true ↔
      t.teamMembers.filter (fun m => m.permission == "owner") ≠ [] := by
  constructor
  · intro h hfil
    rw [hasOwner, List.any_eq_true] at h
    obtain ⟨m, hm, hp⟩ := h
    exact List.filter_eq_nil_iff.mp hfil m hm hp
  · intro h
    rw [hasOwner, List.any_eq_true]
    by_contra hno
    push_neg at hno
    exact h (List.filter_eq_nil_iff.mpr (fun a ha => by simpa using hno a ha))

/-- With no owner entry, `_create_or_update_team` raises the IndexError of
`team_owner_list[0]`. -/
theorem create_no_owner_eq (tr : Member → Member) (t : Team) (s : DestState)
    (h : hasOwner t = false) :
    create_or_update_team tr t s = Except.error PyErr.indexError := by
  have hfil : t.teamMembers.filter (fun m => m.permission == "owner") = [] := by
    by_contra hne
    exact absurd ((hasOwner_iff_filter_ne_nil t).mpr hne) (by simp [h])
  simp only [create_or_update_team, hfil]

/-- With an owner entry, `_create_or_update_team` returns normally. -/
theorem create_isOk (tr : Member → Member) (t : Team) (s : DestState)
    (h : hasOwner t = true) :
    ∃ t2 s2, create_or_update_team tr t s = Except.ok (t2, s2) := by
  have hne := (hasOwner_iff_filter_ne_nil t).mp h
  cases hE : create_or_update_team tr t s with
  | ok p => exact ⟨p.1, p.2, rfl⟩
  | error e =>
      exfalso
      cases hfil : t.teamMembers.filter (fun m => m.permission == "owner") with
      | nil => exact hne hfil
      | cons o rest => simp [create_or_update_team, hfil] at hE

/-- Evaluation of `check_team` when the owner filter is nonempty. -/
theorem check_team_cons (names : List String) (o : Member) (rest : List Member)
    (t : Team)
    (hfil : t.teamMembers.filter (fun m => m.permission == "owner") = o :: rest) :
    check_team names t = Except.ok (t.teamMembers.foldl
      (fun acc m => if m.username ∈ names then acc else false)
      (if o.username ∈ names then true else false)) := by
  simp only [check_team, hfil, List.length_cons]
  norm_num

/-- With an owner entry, `check_team` returns normally. -/
theorem check_team_ok (names : List String) (t : Team)
    (h : hasOwner t = true) : ∃ b, check_team names t = Except.ok b := by
  cases hfil : t.teamMembers.filter (fun m => m.permission == "owner") with
  | nil => exact absurd hfil ((hasOwner_iff_filter_ne_nil t).mp h)
  | cons o rest => exact ⟨_, check_team_cons names o rest t hfil⟩

/-- The member fold of `check_team` keeps a false accumulator false. -/
theorem check_fold_false (names : List String) (ms : List Member) :
    ms.foldl (fun acc m => if m.username ∈ names then acc else false) false
      = false := by
  induction ms with
  | nil => rfl
  | cons m ms ih =>
      simp only [List.foldl_cons, ite_self]
      exact ih

/-- The member fold of `check_team` ends false whenever some member is
missing from the user names. -/
theorem check_fold_missing (names : List String) :
    ∀ (ms : List Member) (b : Bool), (∃ m0 ∈ ms, m0.username ∉ names) →
      ms.foldl (fun acc m => if m.username ∈ names then acc else false) b
        = false := by
  intro ms
  induction ms with
  | nil =>
      rintro b ⟨m0, h, _⟩
      cases h
  | cons m ms ih =>
      rintro b ⟨m0, hm0, hname⟩
      rcases List.mem_cons.mp hm0 with e | hmem
      · subst e
        simp only [List.foldl_cons, if_neg hname]
        exact check_fold_false names ms
      · simp only [List.foldl_cons]
        exact ih _ ⟨m0, hmem, hname⟩

/-- A team with an owner but a member missing from the user names checks
to false. -/
theorem check_team_missing_member (names : List String) (t : Team)
    (h : hasOwner t = true)
    (hmiss : ∃ m ∈ t.teamMembers, m.username ∉ names) :
    check_team names t = Except.ok false := by
  cases hfil : t.teamMembers.filter (fun m => m.permission == "owner") with
  | nil => exact absurd hfil ((hasOwner_iff_filter_ne_nil t).mp h)
  | cons o rest =>
      rw [check_team_cons names o rest t hfil]
      rw [check_fold_missing names t.teamMembers _ hmiss]

/-- When every team has an owner, the check loop returns normally, and it
returns false as soon as the accumulator is false or some team checks to
false. -/
theorem checkLoop_false (names : List String) :
    ∀ (ts : List Team), (∀ t ∈ ts, hasOwner t = true) →
      ∀ acc, (acc = false ∨ ∃ t ∈ ts, check_team names t = Except.ok false) →
        checkLoop names acc ts = Except.ok false := by
  intro ts
  induction ts with
  | nil =>
      rintro _ acc (rfl | ⟨t, ht, _⟩)
      · rfl
      · cases ht
  | cons t ts ih =>
      intro h acc hcase
      obtain ⟨b, hb⟩ := check_team_ok names t (h t (by simp))
      simp only [checkLoop, hb]
      have hrest : ∀ x ∈ ts, hasOwner x = true := fun x hx => h x (by simp [hx])
      rcases hcase with rfl | ⟨t0, ht0, hf0⟩
      · exact ih hrest _ (Or.inl (by simp))
      · rcases List.mem_cons.mp ht0 with e | hmem
        · subst e
          have hbf : b = false := by
            have := hb.symm.trans hf0
            injection this
          subst hbf
          exact ih hrest _ (Or.inl (by simp))
        · exact ih hrest _ (Or.inr ⟨t0, hmem, hf0⟩)

/-! Claim theorems. -/

/-- Claim C1: the pre-import consistency check is claimed to be a pure
boolean function that returns false (rather than raising) on a team with
zero owner-permission entries. The code sets its result flag to false but
then evaluates `team_owner_list[0]` on the empty owner list, so on such an
input the call raises an IndexError instead of returning a boolean. -/
theorem check_zero_owner_team_raises :
    check_teams_users_integration c1_users [c1_team]
      = Except.error PyErr.indexError := rfl

/-- Claim C4, counterexample: replaying the owner-less team raises the
IndexError of `team_owner_list[0]`, and no `MalformedTeamError` exists in
the code, so the error raised is not a MalformedTeamError. -/
theorem create_or_update_no_owner_counterexample :
    create_or_update_team (fun m => m) c1_team [] =
        Except.error PyErr.indexError ∧
      PyErr.indexError ≠ PyErr.malformedTeamError :=
  ⟨rfl, by decide⟩

/-- Claim C4 (amended): replaying a team whose membership list contains no
entry with permission "owner" fails, with the unhandled IndexError from
indexing the empty owner list rather than a dedicated MalformedTeamError. -/
theorem create_or_update_team_no_owner_raises (tr : Member → Member)
    (t : Team) (s : DestState) (h : hasOwner t = false) :
    create_or_update_team tr t s = Except.error PyErr.indexError :=
  create_no_owner_eq tr t s h

/-- Witness for claim C4 at the concrete owner-less team. -/
theorem create_or_update_team_no_owner_raises_witness :
    hasOwner c1_team = false ∧
      create_or_update_team (fun m => m) c1_team [] =
        Except.error PyErr.indexError :=
  ⟨by decide,
    create_or_update_team_no_owner_raises (fun m => m) c1_team [] (by decide)⟩

/-- Claim C3: fetching the key for "alice" succeeds with "k42" and issues
one network call, but the cache afterwards is unchanged (in particular
nothing is stored under "alice"), and the second identical call again
issues a network call instead of answering from the cache: the store is
guarded by the inverted condition `if not api_key is not None` and writes
under the literal key "username". -/
theorem credential_cache_bug :
    retrive_or_create_api_key_for_user c3_get c3_none [] "alice"
        = (some "k42", [], 1) ∧
      (retrive_or_create_api_key_for_user c3_get c3_none [] "alice").2.1.lookup
        "alice" = none ∧
      retrive_or_create_api_key_for_user c3_get c3_none
        ((retrive_or_create_api_key_for_user c3_get c3_none [] "alice").2.1)
        "alice" = (some "k42", [], 1) :=
  ⟨rfl, rfl, rfl⟩

/-- Claim C6: `add_team_member` raises exactly when the underlying call
fails with a body message that does not contain the already-a-member
fragment; a failure whose message contains the fragment is swallowed. -/
theorem add_team_member_raises_iff (call : V1CallResult) :
    (∃ e, add_team_member call = Except.error e) ↔
      ∃ msg, call = V1CallResult.failure msg ∧
        containsSub already_member_msg.data msg.data = false := by
  cases call with
  | success => simp [add_team_member]
  | failure msg =>
      cases h : containsSub already_member_msg.data msg.data with
      | false => simp [add_team_member, h]
      | true => simp [add_team_member, h]

/-- Claim C2, counterexample: with the owner-less team "bad" followed by the
well-formed team "good", the import loop escapes with the IndexError and the
destination never receives "good" — the remaining teams are not replayed. -/
theorem replay_failure_aborts_batch_counterexample :
    replayAllTeams (fun m => m) [c2_bad, c2_good] []
        = ([], some PyErr.indexError) ∧
      (replayAllTeams (fun m => m) [c2_bad, c2_good] []).1.lookup
        c2_good.username = none :=
  ⟨rfl, rfl⟩

/-- Claim C2 (amended): `_import_teams` has no per-team exception handling;
an error raised while replaying one team propagates out of the loop, the
destination keeps only the state reached before the failing team, and the
remaining teams are not replayed. -/
theorem replay_failure_propagates (tr : Member → Member) (ts1 : List Team)
    (bad : Team) (ts2 : List Team) (s : DestState)
    (h1 : ∀ t ∈ ts1, hasOwner t = true) (h2 : hasOwner bad = false) :
    replayAllTeams tr (ts1 ++ bad :: ts2) s =
      ((replayAllTeams tr ts1 s).1, some PyErr.indexError) := by
  induction ts1 generalizing s with
  | nil =>
      simp only [List.nil_append, replayAllTeams]
      rw [create_no_owner_eq tr bad s h2]
  | cons t ts ih =>
      obtain ⟨t2, s2, hok⟩ := create_isOk tr t s (h1 t (by simp))
      simp only [List.cons_append, replayAllTeams, hok]
      exact ih s2 (fun x hx => h1 x (List.mem_cons_of_mem _ hx))

/-- Witness for claim C2 with one good team before the bad one. -/
theorem replay_failure_propagates_witness :
    (∀ t ∈ [c2_good], hasOwner t = true) ∧ hasOwner c2_bad = false ∧
      replayAllTeams (fun m => m) ([c2_good] ++ c2_bad :: []) [] =
        ((replayAllTeams (fun m => m) [c2_good] []).1,
          some PyErr.indexError) :=
  ⟨by decide, by decide,
    replay_failure_propagates (fun m => m) [c2_good] c2_bad [] []
      (by decide) (by decide)⟩

/-- Claim C8, counterexample: the snapshot team references "bob", the
exported users file is empty, yet pre-import verification passes, because
the user list it checks against is freshly fetched from the destination
(which does know "bob"), not the exported user list. -/
theorem pre_import_verify_ignores_export_counterexample :
    pre_import_verify c8_exported c8_dest c8_teams = Except.ok true ∧
      "bob" ∈ c8_teams.flatMap (fun t => t.teamMembers.map Member.username) ∧
      "bob" ∉ userNames c8_exported :=
  ⟨rfl, by decide, by decide⟩

/-- Claim C8 (amended): before any mutation, `_pre_import_verify` checks
every member referenced in the exported team snapshot against the user list
fetched from the destination instance — not against the exported users
file, which it ignores: whenever some member is absent from the destination
users (and every team has an owner, so the check completes), it returns
false, whatever the exported user list contains. -/
theorem pre_import_verify_uses_destination_users (exU dU : List User)
    (ts : List Team) (hOwn : ∀ t ∈ ts, hasOwner t = true)
    (hMiss : ∃ t ∈ ts, ∃ m ∈ t.teamMembers, m.username ∉ userNames dU) :
    pre_import_verify exU dU ts = Except.ok false := by
  obtain ⟨t0, ht0, hm⟩ := hMiss
  have hf := check_team_missing_member (userNames dU) t0 (hOwn t0 ht0) hm
  exact checkLoop_false (userNames dU) ts hOwn true (Or.inr ⟨t0, ht0, hf⟩)

/-- Witness for claim C8: "bob" is referenced by the snapshot team but
absent from the destination users, so verification fails, although the
exported list passed alongside does contain him. -/
theorem pre_import_verify_uses_destination_users_witness :
    (∀ t ∈ c8_teams, hasOwner t = true) ∧
      (∃ t ∈ c8_teams, ∃ m ∈ t.teamMembers,
        m.username ∉ userNames c1_users) ∧
      pre_import_verify c8_dest c1_users c8_teams = Except.ok false :=
  ⟨by decide, by decide,
    pre_import_verify_uses_destination_users c8_dest c1_users c8_teams
      (by decide) (by decide)⟩

/-- Division step for the page count: collecting one page reduces the
remaining ceiling count by one. -/
theorem ceil_div_sub (n L : Nat) (hn : 0 < n) (hL : 0 < L) :
    (n - L + L - 1) / L = (n - 1) / L := by
  rcases le_or_lt n L with hle | hlt
  · have e1 : n - L + L - 1 = L - 1 := by omega
    have e2 : (L - 1) / L = 0 := Nat.div_eq_of_lt (by omega)
    have e3 : (n - 1) / L = 0 := Nat.div_eq_of_lt (by omega)
    rw [e1, e2, e3]
  · have e1 : n - L + L - 1 = n - 1 := by omega
    rw [e1]

/-- Ceiling division written with a floor: (n + L - 1) / L = (n - 1) / L + 1
for positive n. -/
theorem ceil_div_succ (n L : Nat) (hn : 0 < n) (hL : 0 < L) :
    (n + L - 1) / L = (n - 1) / L + 1 := by
  have e : n + L - 1 = n - 1 + L := by omega
  rw [e, Nat.add_div_right _ hL]

/-- The collection loop started at `offset` returns the suffix from
`offset` and issues one page request per full or partial page plus the
final empty page. -/
theorem teamuserListLoop_collects (records : List α) (limit : Nat)
    (hL : 0 < limit) :
    ∀ offset, teamuserListLoop records limit offset =
      (records.drop offset,
        ((records.drop offset).length + limit - 1) / limit + 1) := by
  intro offset
  have H : ∀ m, ∀ off, records.length - off = m →
      teamuserListLoop records limit off =
        (records.drop off,
          ((records.drop off).length + limit - 1) / limit + 1) := by
    intro m
    induction m using Nat.strong_induction_on with
    | _ m ih =>
        intro off hoff
        rw [teamuserListLoop]
        by_cases hp : (get_team_or_user_listv1_paged records off limit).length = 0
        · rw [dif_pos hp]
          have hdrop : records.drop off = [] := by
            have h0 := List.length_eq_zero.mp hp
            simp only [get_team_or_user_listv1_paged] at h0
            rcases List.take_eq_nil_iff.mp h0 with h | h
            · omega
            · exact h
          rw [hdrop]
          have hz : (List.length ([] : List α) + limit - 1) / limit = 0 :=
            Nat.div_eq_of_lt (by simp; omega)
          rw [hz]
        · rw [dif_neg hp]
          have h2 : records.drop off ≠ [] := by
            intro e
            exact hp (by simp only [get_team_or_user_listv1_paged]; rw [e]; simp)
          have hlen : off < records.length := by
            rw [ne_eq, List.drop_eq_nil_iff] at h2
            omega
          have hrec := ih (records.length - (off + limit)) (by omega)
            (off + limit) rfl
          simp only [hrec]
          have hsplit : get_team_or_user_listv1_paged records off limit ++
              records.drop (off + limit) = records.drop off := by
            simp only [get_team_or_user_listv1_paged]
            rw [← List.drop_drop]
            exact List.take_append_drop _ _
          have hcnt : ((records.drop (off + limit)).length + limit - 1) / limit
              + 1 + 1 = ((records.drop off).length + limit - 1) / limit + 1 := by
            have hn1 : (records.drop off).length = records.length - off := by
              simp [List.length_drop]
            have hn2 : (records.drop (off + limit)).length =
                (records.length - off) - limit := by
              simp only [List.length_drop]
              omega
            rw [hn1, hn2]
            rw [ceil_div_sub (records.length - off) limit (by omega) hL]
            rw [ceil_div_succ (records.length - off) limit (by omega) hL]
          rw [Prod.mk.injEq]
          exact ⟨hsplit, by omega⟩
  exact H (records.length - offset) offset rfl

/-- Claim C5: for a resource of N records and page size P > 0, the
collector loop issues exactly the ceiling of N / P plus one page requests
(the final empty page included; one single request when N = 0) and returns
exactly the N records in source order. -/
theorem get_teamuser_listv1_pagination (records : List α) (limit : Nat)
    (hL : 0 < limit) :
    teamuserListLoop records limit 0 =
      (records, (records.length + limit - 1) / limit + 1) := by
  have h := teamuserListLoop_collects records limit hL 0
  simpa using h

/-- Witness for claim C5: five records with page size two give four page
requests (pages of 2, 2, 1 and the empty page) and the records back in
order. -/
theorem get_teamuser_listv1_pagination_witness :
    0 < 2 ∧ teamuserListLoop [10, 20, 30, 40, 50] 2 0
      = ([10, 20, 30, 40, 50], 4) := by
  refine ⟨by decide, ?_⟩
  rw [get_teamuser_listv1_pagination [10, 20, 30, 40, 50] 2 (by decide)]
  decide

/-- Owner count among the first i+1 members, unfolded by one step. -/
theorem ownersBefore_cons (m : Member) (ms : List Member) (i : Nat) :
    ownersBefore (m :: ms) (i + 1) =
      ownersBefore ms i + (if m.permission == "owner" then 1 else 0) := by
  simp only [ownersBefore, List.take_succ_cons, List.filter_cons]
  by_cases h : (m.permission == "owner") = true
  · simp [h]
  · simp [h]

/-- Pointwise description of the in-place permission mutation: position i
is downgraded to "admin" exactly when it holds an owner entry and either an
owner entry was already passed (the flag) or an owner entry occurs earlier
in the list. -/
theorem downgradeExtras_getElem (l : List Member) :
    ∀ (seen : Bool) (i : Nat),
      (downgradeExtras seen l)[i]? = (l[i]?).map (fun m =>
        if m.permission = "owner" ∧ (seen = true ∨ 0 < ownersBefore l i)
        then { m with permission := "admin" } else m) := by
  induction l with
  | nil => intro seen i; simp [downgradeExtras]
  | cons m ms ih =>
      intro seen i
      cases i with
      | zero =>
          cases hmp : (m.permission == "owner") with
          | true =>
              have hp : m.permission = "owner" := by simpa using hmp
              cases seen with
              | false =>
                  rw [show downgradeExtras false (m :: ms)
                      = m :: downgradeExtras true ms by
                    simp [downgradeExtras, hmp]]
                  simp only [List.getElem?_cons_zero, Option.map_some']
                  have hng : ¬(m.permission = "owner" ∧
                      (false = true ∨ 0 < ownersBefore (m :: ms) 0)) := by
                    rintro ⟨-, hor | hor⟩
                    · cases hor
                    · simp [ownersBefore] at hor
                  exact congrArg some (if_neg hng).symm
              | true =>
                  rw [show downgradeExtras true (m :: ms)
                      = { m with permission := "admin" }
                          :: downgradeExtras true ms by
                    simp [downgradeExtras, hmp]]
                  simp only [List.getElem?_cons_zero, Option.map_some']
                  exact congrArg some (if_pos ⟨hp, Or.inl (by trivial)⟩).symm
          | false =>
              have hp : ¬ m.permission = "owner" := by simpa using hmp
              rw [show downgradeExtras seen (m :: ms)
                  = m :: downgradeExtras seen ms by
                simp [downgradeExtras, hmp]]
              simp only [List.getElem?_cons_zero, Option.map_some']
              exact congrArg some (if_neg (fun hc => hp hc.1)).symm
      | succ i =>
          cases hmp : (m.permission == "owner") with
          | true =>
              rw [show downgradeExtras seen (m :: ms)
                  = (if seen then { m with permission := "admin" } else m)
                      :: downgradeExtras true ms by
                simp [downgradeExtras, hmp]]
              simp only [List.getElem?_cons_succ]
              rw [ih true i]
              have hc1 : ownersBefore (m :: ms) (i + 1)
                  = ownersBefore ms i + 1 := by
                rw [ownersBefore_cons m ms i, hmp]
                simp
              rw [hc1]
              cases hx : ms[i]? with
              | none => rfl
              | some x =>
                  simp only [Option.map_some']
                  refine congrArg some (if_congr ?_ rfl rfl)
                  constructor
                  · rintro ⟨h1, -⟩
                    exact ⟨h1, Or.inr (Nat.succ_pos _)⟩
                  · rintro ⟨h1, -⟩
                    exact ⟨h1, Or.inl (by trivial)⟩
          | false =>
              rw [show downgradeExtras seen (m :: ms)
                  = m :: downgradeExtras seen ms by
                simp [downgradeExtras, hmp]]
              simp only [List.getElem?_cons_succ]
              rw [ih seen i]
              have hc0 : ownersBefore (m :: ms) (i + 1)
                  = ownersBefore ms i := by
                rw [ownersBefore_cons m ms i, hmp]
                simp
              rw [hc0]

/-- Claim C10: replay mutates its input team record in place. For any team
with an owner, `_create_or_update_team` returns (next to the new
destination state) the caller's team with the permission field of every
owner entry after the first overwritten to "admin": position i is changed
exactly when it holds an owner entry preceded by another owner entry, and
every other field — the team handle, the opaque team fields, every other
member and every other member field — is unchanged. -/
theorem create_or_update_team_mutates_input (tr : Member → Member) (t : Team)
    (s : DestState) (h : hasOwner t = true) :
    ∃ t2 s2, create_or_update_team tr t s = Except.ok (t2, s2) ∧
      t2.username = t.username ∧ t2.extra = t.extra ∧
      ∀ i : Nat, t2.teamMembers[i]? = (t.teamMembers[i]?).map (fun m =>
        if m.permission = "owner" ∧ 0 < ownersBefore t.teamMembers i
        then { m with permission := "admin" } else m) := by
  have hne := (hasOwner_iff_filter_ne_nil t).mp h
  cases hfil : t.teamMembers.filter (fun m => m.permission == "owner") with
  | nil => exact absurd hfil hne
  | cons o rest =>
      obtain ⟨t2, s2, hok⟩ := create_isOk tr t s h
      have hok2 := hok
      simp only [create_or_update_team, hfil] at hok2
      injection hok2 with h1
      injection h1 with ha hb
      refine ⟨t2, s2, hok, ?_, ?_, ?_⟩
      · rw [← ha]
      · rw [← ha]
      · intro i
        rw [← ha]
        show (downgradeExtras false t.teamMembers)[i]? = _
        rw [downgradeExtras_getElem t.teamMembers false i]
        cases hx : t.teamMembers[i]? with
        | none => rfl
        | some x =>
            simp only [Option.map_some']
            have hiff : (x.permission = "owner" ∧
                (false = true ∨ 0 < ownersBefore t.teamMembers i)) ↔
                (x.permission = "owner" ∧ 0 < ownersBefore t.teamMembers i) := by
              constructor
              · rintro ⟨h1, h2 | h2⟩
                · cases h2
                · exact ⟨h1, h2⟩
              · rintro ⟨h1, h2⟩
                exact ⟨h1, Or.inr h2⟩
            exact congrArg some (if_congr hiff rfl rfl)

/-- Witness for claim C10 at a team with two owner entries (alice first,
carol second) and a plain member. -/
theorem create_or_update_team_mutates_input_witness :
    hasOwner c10_team = true ∧
      ∃ t2 s2, create_or_update_team (fun m => m) c10_team []
          = Except.ok (t2, s2) ∧
        t2.username = c10_team.username ∧ t2.extra = c10_team.extra ∧
        ∀ i : Nat, t2.teamMembers[i]? = (c10_team.teamMembers[i]?).map
          (fun m =>
            if m.permission = "owner" ∧ 0 < ownersBefore c10_team.teamMembers i
            then { m with permission := "admin" } else m) :=
  ⟨by decide,
    create_or_update_team_mutates_input (fun m => m) c10_team [] (by decide)⟩

/-- Membership in the field-difference list, unfolded. -/
theorem mem_field_diffs (left right : List VRecord) (lk rk skip : List String)
    (idKey k f : String) :
    (k, f) ∈ field_diffs left right lk rk skip idKey ↔
      (k ∈ lk ∧ k ∈ rk) ∧
      (f ∈ record_fields (findByKey left idKey k) ∨
        f ∈ record_fields (findByKey right idKey k)) ∧
      f ∉ skip ∧ f ≠ idKey ∧
      Option.bind (findByKey left idKey k) (fun r => getField r f) ≠
        Option.bind (findByKey right idKey k) (fun r => getField r f) := by
  simp only [field_diffs, List.mem_flatMap, List.mem_filter, List.mem_map,
    List.mem_dedup, List.mem_append, decide_eq_true_eq, Bool.and_eq_true,
    Prod.mk.injEq]
  constructor
  · rintro ⟨a, ⟨hal, har⟩, f2, ⟨hf2, ⟨hskip, hid⟩, hne⟩, rfl, rfl⟩
    exact ⟨⟨hal, har⟩, hf2, hskip, hid, hne⟩
  · rintro ⟨⟨hal, har⟩, hf, hskip, hid, hne⟩
    exact ⟨k, ⟨hal, har⟩, f, ⟨hf, ⟨hskip, hid⟩, hne⟩, rfl, rfl⟩

/-- Claim C9: the metadata diff is symmetric. Swapping the two collections
together with their key lists leaves the `missingKeys` membership unchanged
(the symmetric difference of the key sets) and leaves the set of
(identity, field) pairs in `fieldDiffs` unchanged. -/
theorem compare_metadata_symm (left right : List VRecord)
    (lk rk skip : List String) (idKey : String) :
    (∀ k, k ∈ (compare_metadata left right lk rk skip idKey).1 ↔
      k ∈ (compare_metadata right left rk lk skip idKey).1) ∧
    (∀ p : String × String,
      p ∈ (compare_metadata left right lk rk skip idKey).2 ↔
        p ∈ (compare_metadata right left rk lk skip idKey).2) := by
  constructor
  · intro k
    simp only [compare_metadata, missing_keys, List.mem_append,
      List.mem_filter, decide_eq_true_eq]
    tauto
  · rintro ⟨k, f⟩
    show (k, f) ∈ field_diffs left right lk rk skip idKey ↔
      (k, f) ∈ field_diffs right left rk lk skip idKey
    rw [mem_field_diffs, mem_field_diffs]
    constructor
    · rintro ⟨⟨h1, h2⟩, hor, h3, h4, h5⟩
      exact ⟨⟨h2, h1⟩, hor.symm, h3, h4, fun e => h5 e.symm⟩
    · rintro ⟨⟨h1, h2⟩, hor, h3, h4, h5⟩
      exact ⟨⟨h2, h1⟩, hor.symm, h3, h4, fun e => h5 e.symm⟩

/-- Association-list lookup at the key just added. -/
theorem lookup_cons_self {β : Type} (k : String) (v : β)
    (es : List (String × β)) : ((k, v) :: es).lookup k = some v := by
  rw [List.lookup_cons]
  simp

/-- Association-list lookup skipping a different key. -/
theorem lookup_cons_ne {β : Type} (a k : String) (v : β)
    (es : List (String × β)) (h : (a == k) = false) :
    ((k, v) :: es).lookup a = es.lookup a := by
  rw [List.lookup_cons, h]

/-- Adding a member touches exactly the designated team in the state. -/
theorem lookup_add_member_state_self (name : String) (m : Member)
    (s : DestState) :
    (add_member_state name m s).lookup name =
      (s.lookup name).map (fun dt => addMemberEntry dt m) := by
  induction s with
  | nil => rfl
  | cons p s ih =>
      obtain ⟨k, v⟩ := p
      cases hk : (k == name) with
      | true =>
          have hkn : k = name := by simpa using hk
          subst hkn
          rw [show add_member_state k m ((k, v) :: s)
              = (k, addMemberEntry v m) :: add_member_state k m s by
            simp [add_member_state]]
          rw [lookup_cons_self, lookup_cons_self]
          rfl
      | false =>
          have hne : (name == k) = false :=
            beq_eq_false_iff_ne.mpr
              (fun e => (beq_eq_false_iff_ne.mp hk) e.symm)
          rw [show add_member_state name m ((k, v) :: s)
              = (k, v) :: add_member_state name m s by
            simp only [add_member_state, List.map_cons]
            rw [if_neg (by simp [hk])]]
          rw [lookup_cons_ne name k _ _ hne, lookup_cons_ne name k v s hne]
          exact ih

/-- Folding member additions over the state, seen through the lookup of the
designated team. -/
theorem lookup_fold_add_self (name : String) (g : Member → Member) :
    ∀ (ms : List Member) (st : DestState),
      ((ms.foldl (fun st m => add_member_state name (g m) st) st).lookup name)
        = (st.lookup name).map
            (fun dt => ms.foldl (fun dt m => addMemberEntry dt (g m)) dt) := by
  intro ms
  induction ms with
  | nil =>
      intro st
      cases h : st.lookup name <;> simp [h]
  | cons m ms ih =>
      intro st
      rw [List.foldl_cons, ih (add_member_state name (g m) st),
        lookup_add_member_state_self]
      cases h : st.lookup name <;> simp [h]

/-- Folding additions of members with fresh usernames appends them in
order: no conflict fires when the usernames are distinct from each other
and from the owner. -/
theorem foldl_addMemberEntry_no_conflict (ow : String) :
    ∀ (ms acc : List Member),
      ((acc ++ ms).map Member.username).Nodup →
      ow ∉ ms.map Member.username →
      ms.foldl addMemberEntry { owner := ow, members := acc }
        = { owner := ow, members := acc ++ ms } := by
  intro ms
  induction ms with
  | nil => intro acc _ _; simp
  | cons m ms ih =>
      intro acc hnd how
      have hdisj := (List.nodup_append.mp (by rwa [List.map_append] at hnd)).2.2
      have hmu : m.username ∉ acc.map Member.username := by
        intro hmem
        exact hdisj hmem (by simp)
      have howm : ¬ ow = m.username := fun e => how (by simp [e])
      have hstep : addMemberEntry { owner := ow, members := acc } m
          = { owner := ow, members := acc ++ [m] } := by
        rw [addMemberEntry, if_neg]
        intro hcond
        simp only [Bool.or_eq_true, beq_iff_eq, List.any_eq_true] at hcond
        rcases hcond with hc | ⟨x, hx, he⟩
        · exact howm hc
        · exact hmu (List.mem_map.mpr ⟨x, hx, he⟩)
      rw [List.foldl_cons, hstep]
      have hnd2 : (((acc ++ [m]) ++ ms).map Member.username).Nodup := by
        rw [List.append_assoc]
        simpa using hnd
      have how2 : ow ∉ ms.map Member.username :=
        fun hmem => how (by simp [hmem])
      rw [ih (acc ++ [m]) hnd2 how2]
      simp

/-- The in-place mutation does not change any username. -/
theorem downgradeExtras_map_username :
    ∀ (seen : Bool) (l : List Member),
      (downgradeExtras seen l).map Member.username
        = l.map Member.username := by
  intro seen l
  induction l generalizing seen with
  | nil => rfl
  | cons m ms ih =>
      cases hmp : (m.permission == "owner") with
      | true =>
          cases seen <;> simp [downgradeExtras, hmp, ih]
      | false =>
          simp [downgradeExtras, hmp, ih]

/-- After the mutation with the flag set, no owner entry is left. -/
theorem filter_owner_downgrade_true (l : List Member) :
    (downgradeExtras true l).filter (fun m => m.permission == "owner")
      = [] := by
  induction l with
  | nil => rfl
  | cons m ms ih =>
      have hadm : (("admin" : String) == "owner") = false := by decide
      cases hmp : (m.permission == "owner") with
      | true => simp [downgradeExtras, hmp, List.filter_cons, hadm, ih]
      | false => simp [downgradeExtras, hmp, List.filter_cons, ih]

/-- After the mutation, exactly the first owner entry is left as owner. -/
theorem filter_owner_downgrade_false :
    ∀ (l : List Member) (o : Member) (rest : List Member),
      l.filter (fun m => m.permission == "owner") = o :: rest →
      (downgradeExtras false l).filter (fun m => m.permission == "owner")
        = [o] := by
  intro l
  induction l with
  | nil =>
      intro o rest h
      simp at h
  | cons m ms ih =>
      intro o rest hfil
      cases hmp : (m.permission == "owner") with
      | true =>
          rw [List.filter_cons, if_pos hmp] at hfil
          injection hfil with h1 _
          rw [show downgradeExtras false (m :: ms)
              = m :: downgradeExtras true ms by simp [downgradeExtras, hmp]]
          rw [List.filter_cons, if_pos hmp, filter_owner_downgrade_true ms, h1]
      | false =>
          rw [List.filter_cons, if_neg (by simp [hmp])] at hfil
          rw [show downgradeExtras false (m :: ms)
              = m :: downgradeExtras false ms by simp [downgradeExtras, hmp]]
          rw [List.filter_cons, if_neg (by simp [hmp])]
          exact ih o rest hfil

/-- The non-owner entries after the mutation with the flag set: the original
non-owners interleaved with all former owners downgraded, a permutation of
the non-owners followed by the downgraded owners. -/
theorem filter_nonowner_downgrade_true (l : List Member) :
    List.Perm
      ((downgradeExtras true l).filter (fun m => m.permission != "owner"))
      (l.filter (fun m => m.permission != "owner") ++
        (l.filter (fun m => m.permission == "owner")).map
          (fun m => { m with permission := "admin" })) := by
  induction l with
  | nil => exact List.Perm.nil
  | cons m ms ih =>
      have hadm : (("admin" : String) != "owner") = true := by decide
      cases hmp : (m.permission == "owner") with
      | true =>
          have hnm : (m.permission != "owner") = false := by
            simp [bne, hmp]
          rw [show downgradeExtras true (m :: ms)
              = { m with permission := "admin" } :: downgradeExtras true ms by
            simp [downgradeExtras, hmp]]
          rw [List.filter_cons, if_pos hadm]
          rw [List.filter_cons (x := m), if_neg (by simp [hnm])]
          rw [List.filter_cons (x := m), if_pos hmp]
          rw [List.map_cons]
          exact (ih.cons _).trans List.perm_middle.symm
      | false =>
          have hnm : (m.permission != "owner") = true := by
            simp [bne, hmp]
          rw [show downgradeExtras true (m :: ms)
              = m :: downgradeExtras true ms by simp [downgradeExtras, hmp]]
          rw [List.filter_cons, if_pos hnm]
          rw [List.filter_cons (x := m), if_pos hnm]
          rw [List.filter_cons (x := m), if_neg (by simp [hmp])]
          rw [List.cons_append]
          exact ih.cons _

/-- The non-owner entries after the mutation with the flag unset, when the
owner filter is `o :: rest`: a permutation of the original non-owners
followed by the downgraded extra owners. -/
theorem filter_nonowner_downgrade_false :
    ∀ (l : List Member) (o : Member) (rest : List Member),
      l.filter (fun m => m.permission == "owner") = o :: rest →
      List.Perm
        ((downgradeExtras false l).filter (fun m => m.permission != "owner"))
        (l.filter (fun m => m.permission != "owner") ++
          rest.map (fun m => { m with permission := "admin" })) := by
  intro l
  induction l with
  | nil =>
      intro o rest h
      simp at h
  | cons m ms ih =>
      intro o rest hfil
      cases hmp : (m.permission == "owner") with
      | true =>
          have hnm : (m.permission != "owner") = false := by
            simp [bne, hmp]
          rw [List.filter_cons, if_pos hmp] at hfil
          injection hfil with h1 h2
          rw [show downgradeExtras false (m :: ms)
              = m :: downgradeExtras true ms by simp [downgradeExtras, hmp]]
          rw [List.filter_cons, if_neg (by simp [hnm])]
          rw [List.filter_cons (x := m), if_neg (by simp [hnm])]
          rw [← h2]
          exact filter_nonowner_downgrade_true ms
      | false =>
          have hnm : (m.permission != "owner") = true := by
            simp [bne, hmp]
          rw [List.filter_cons, if_neg (by simp [hmp])] at hfil
          rw [show downgradeExtras false (m :: ms)
              = m :: downgradeExtras false ms by simp [downgradeExtras, hmp]]
          rw [List.filter_cons, if_pos hnm]
          rw [List.filter_cons (x := m), if_pos hnm]
          rw [List.cons_append]
          exact (ih o rest hfil).cons _

/-- Explicit result of `_create_or_update_team` when the owner filter gives
`o :: rest`. -/
theorem create_eq (tr : Member → Member) (t : Team) (s : DestState)
    (o : Member) (rest : List Member)
    (hfil : t.teamMembers.filter (fun m => m.permission == "owner")
      = o :: rest) :
    create_or_update_team tr t s = Except.ok
      ({ t with teamMembers := downgradeExtras false t.teamMembers },
        rest.foldl
          (fun st m =>
            add_member_state t.username (tr { m with permission := "admin" }) st)
          ((t.teamMembers.filter (fun m => m.permission != "owner")).foldl
            (fun st m => add_member_state t.username (tr m) st)
            (add_team t.username o.username (del_team t.username s)))) := by
  simp only [create_or_update_team, hfil]

/-- The destination record of the replayed team: owned by the first owner,
with the translated non-owners and the translated downgraded extra owners
folded in. -/
theorem create_state_lookup (tr : Member → Member) (t : Team) (s : DestState)
    (o : Member) (rest : List Member)
    (hfil : t.teamMembers.filter (fun m => m.permission == "owner")
      = o :: rest) :
    ∃ s2, create_or_update_team tr t s = Except.ok
        ({ t with teamMembers := downgradeExtras false t.teamMembers }, s2) ∧
      s2.lookup t.username = some
        (((t.teamMembers.filter (fun m => m.permission != "owner")).map tr ++
          rest.map (fun m => tr { m with permission := "admin" })).foldl
          addMemberEntry { owner := o.username, members := [] }) := by
  refine ⟨_, create_eq tr t s o rest hfil, ?_⟩
  rw [lookup_fold_add_self, lookup_fold_add_self, add_team, lookup_cons_self]
  simp only [Option.map_some']
  rw [List.foldl_append, List.foldl_map, List.foldl_map]

/-- Usernames are unchanged by a username-preserving translation under a
map. -/
theorem map_username_comp (f : Member → Member)
    (hf : ∀ m, (f m).username = m.username) (l : List Member) :
    l.map (fun m => (f m).username) = l.map Member.username :=
  List.map_congr_left (fun a _ => hf a)

/-- Claim C7 (amended): for a team whose member usernames are pairwise
distinct (and whose translation preserves usernames), replaying twice —
the second time from an arbitrary, possibly diverged destination state and
with the team record as mutated by the first replay — produces destination
team records with the same owner and membership lists equal up to
permutation. -/
theorem replay_idempotent_nodup (tr : Member → Member) (t : Team)
    (s s' : DestState)
    (htr : ∀ m, (tr m).username = m.username)
    (hnd : (t.teamMembers.map Member.username).Nodup)
    (how : hasOwner t = true) :
    ∃ t1 s1 t2 s2,
      create_or_update_team tr t s = Except.ok (t1, s1) ∧
      create_or_update_team tr t1 s' = Except.ok (t2, s2) ∧
      ∃ d1 d2, s1.lookup t.username = some d1 ∧
        s2.lookup t.username = some d2 ∧
        d1.owner = d2.owner ∧ List.Perm d1.members d2.members := by
  have hne := (hasOwner_iff_filter_ne_nil t).mp how
  cases hfil : t.teamMembers.filter (fun m => m.permission == "owner") with
  | nil => exact absurd hfil hne
  | cons o rest =>
    obtain ⟨s1, hrun1, hlook1⟩ := create_state_lookup tr t s o rest hfil
    have hfil2 : (downgradeExtras false t.teamMembers).filter
        (fun m => m.permission == "owner") = o :: [] :=
      filter_owner_downgrade_false t.teamMembers o rest hfil
    obtain ⟨s2, hrun2, hlook2⟩ := create_state_lookup tr
      { t with teamMembers := downgradeExtras false t.teamMembers } s' o []
      hfil2
    have hlook2b : s2.lookup t.username = some
        ((((downgradeExtras false t.teamMembers).filter
            (fun (m : Member) => m.permission != "owner")).map tr ++ []).foldl
          addMemberEntry { owner := o.username, members := [] }) := hlook2
    have hpermA : List.Perm ((o :: rest).map Member.username ++
        (t.teamMembers.filter (fun m => m.permission != "owner")).map
          Member.username)
        (t.teamMembers.map Member.username) := by
      rw [← hfil, ← List.map_append]
      exact List.Perm.map _ (List.filter_append_perm _ _)
    have hndA := hpermA.symm.nodup hnd
    rw [List.map_cons, List.cons_append] at hndA
    have ho_not := (List.nodup_cons.mp hndA).1
    have hnd_rn := (List.nodup_cons.mp hndA).2
    have hms1u : (((t.teamMembers.filter
          (fun m => m.permission != "owner")).map tr ++
        rest.map (fun m => tr { m with permission := "admin" })).map
          Member.username)
        = (t.teamMembers.filter (fun m => m.permission != "owner")).map
            Member.username ++ rest.map Member.username := by
      rw [List.map_append, List.map_map, List.map_map]
      congr 1
      · exact List.map_congr_left (fun a _ => htr a)
      · exact List.map_congr_left (fun a _ => htr _)
    have hnodup1 : ((((t.teamMembers.filter
          (fun m => m.permission != "owner")).map tr ++
        rest.map (fun m => tr { m with permission := "admin" }))).map
          Member.username).Nodup := by
      rw [hms1u]
      exact List.perm_append_comm.nodup hnd_rn
    have ho1 : o.username ∉ (((t.teamMembers.filter
          (fun m => m.permission != "owner")).map tr ++
        rest.map (fun m => tr { m with permission := "admin" }))).map
          Member.username := by
      rw [hms1u]
      intro hmem
      rcases List.mem_append.mp hmem with h | h
      · exact ho_not (List.mem_append.mpr (Or.inr h))
      · exact ho_not (List.mem_append.mpr (Or.inl h))
    have hfold1 := foldl_addMemberEntry_no_conflict o.username
      ((t.teamMembers.filter (fun m => m.permission != "owner")).map tr ++
        rest.map (fun m => tr { m with permission := "admin" })) []
      (by simpa using hnodup1) ho1
    rw [List.nil_append] at hfold1
    have hperm2 := filter_nonowner_downgrade_false t.teamMembers o rest hfil
    have hpermMs : List.Perm
        (((downgradeExtras false t.teamMembers).filter
          (fun (m : Member) => m.permission != "owner")).map tr ++ [])
        ((t.teamMembers.filter (fun m => m.permission != "owner")).map tr ++
          rest.map (fun m => tr { m with permission := "admin" })) := by
      rw [List.append_nil]
      have h1 := List.Perm.map tr hperm2
      rw [List.map_append, List.map_map] at h1
      exact h1
    have hnodup2 : ((((downgradeExtras false t.teamMembers).filter
          (fun (m : Member) => m.permission != "owner")).map tr ++ []).map
            Member.username).Nodup :=
      ((hpermMs.map Member.username).symm).nodup hnodup1
    have ho2 : o.username ∉ (((downgradeExtras false t.teamMembers).filter
          (fun (m : Member) => m.permission != "owner")).map tr ++ []).map
            Member.username := by
      intro hmem
      exact ho1 ((hpermMs.map Member.username).mem_iff.mp hmem)
    have hfold2 := foldl_addMemberEntry_no_conflict o.username
      (((downgradeExtras false t.teamMembers).filter
        (fun (m : Member) => m.permission != "owner")).map tr ++ []) []
      (by simpa using hnodup2) ho2
    rw [List.nil_append] at hfold2
    refine ⟨_, s1, _, s2, hrun1, hrun2,
      { owner := o.username,
        members := (t.teamMembers.filter
            (fun m => m.permission != "owner")).map tr ++
          rest.map (fun m => tr { m with permission := "admin" }) },
      { owner := o.username,
        members := ((downgradeExtras false t.teamMembers).filter
            (fun (m : Member) => m.permission != "owner")).map tr ++ [] },
      ?_, ?_, rfl, hpermMs.symm⟩
    · rw [hlook1, hfold1]
    · rw [hlook2b, hfold2]

/-- Claim C7, counterexample: for the team `c7_team`, in which the username
"b" carries both a second-owner entry and a member entry, the first replay
leaves the destination membership [b as member] (the downgraded owner add
hits the already-a-member conflict and is swallowed), while the second
replay — whose input is the team record as mutated by the first — leaves
[b as admin]. The resulting membership records differ, so replaying twice
does not yield the same final membership set. -/
theorem replay_twice_counterexample :
    ∃ t1 s1, create_or_update_team (fun m => m) c7_team []
        = Except.ok (t1, s1) ∧
      ∃ t2 s2, create_or_update_team (fun m => m) t1 s1
          = Except.ok (t2, s2) ∧
        s1.lookup c7_team.username
          = some (⟨"a", [⟨"b", "member", []⟩]⟩ : DestTeam) ∧
        s2.lookup c7_team.username
          = some (⟨"a", [⟨"b", "admin", []⟩]⟩ : DestTeam) ∧
        (⟨"b", "member", []⟩ : Member) ∉ [(⟨"b", "admin", []⟩ : Member)] := by
  refine ⟨_, _, rfl, _, _, rfl, rfl, rfl, by decide⟩

/-- Witness for claim C7 at a team with two owners and distinct member
usernames. -/
theorem replay_idempotent_nodup_witness :
    (∀ m : Member, ((fun m => m) m).username = m.username) ∧
      (c10_team.teamMembers.map Member.username).Nodup ∧
      hasOwner c10_team = true ∧
      (∃ t1 s1 t2 s2,
        create_or_update_team (fun m => m) c10_team [] = Except.ok (t1, s1) ∧
        create_or_update_team (fun m => m) t1 [] = Except.ok (t2, s2) ∧
        ∃ d1 d2, s1.lookup c10_team.username = some d1 ∧
          s2.lookup c10_team.username = some d2 ∧
          d1.owner = d2.owner ∧ List.Perm d1.members d2.members) :=
  ⟨fun m => rfl, by decide, by decide,
    replay_idempotent_nodup (fun m => m) c10_team [] [] (fun m => rfl)
      (by decide) (by decide)⟩

end CmlTeams
